import Mathlib

/-!
Verification development for the checkers move-generation and search engine
(`src/Checkers.ts` of ayshrj/checkers.js).  The TypeScript source is embedded
shallowly: the 8×8 board of optional pieces becomes a function from positions
to optional pieces, the in-place array writes of the source become functional
cell updates performed in the same order (so the last write wins, as in JS),
and the recursive capture-chain generator is translated as a well-founded
recursion whose termination measure is the number of opponent pieces on the
playable 8×8 area (each simulated jump removes one opponent piece).
-/

namespace Checkers

/-- `Color` from `types.ts`: the two sides. -/
inductive Color where
  | red
  | black
deriving DecidableEq

/-- `PieceType` from `types.ts`. -/
inductive PieceType where
  | man
  | king
deriving DecidableEq

/-- `Piece` from `types.ts`. -/
structure Piece where
  color : Color
  type : PieceType
deriving DecidableEq

/-- `Position` from `types.ts`; JS numbers used as indices are modelled as
integers so that out-of-bounds coordinates (row −1 etc.) are representable. -/
structure Position where
  row : Int
  col : Int
deriving DecidableEq

/-- `CheckersMove` from `types.ts`.  The source field `from` is a Lean keyword
and is rendered `from_`. -/
structure CheckersMove where
  from_ : Position
  path : List Position
  captures : List Position
deriving DecidableEq

/-- A board is a mapping from positions to optional pieces (the 8×8 array
`(Piece | null)[][]`; cells outside the 8×8 range are never read by the
algorithms without a bounds check). -/
def Board : Type := Position → Option Piece

/-- One array write `board[p.row][p.col] = v`, as a functional update. -/
def setCell (b : Board) (p : Position) (v : Option Piece) : Board :=
  fun q => if q = p then v else b q

/-- `Checkers.getDirections` (lines 288–307). -/
def getDirections (piece : Piece) : List (Int × Int) :=
  if piece.type = PieceType.king then
    [(-1, -1), (-1, 1), (1, -1), (1, 1)]
  else if piece.color = Color.red then
    [(-1, -1), (-1, 1)]
  else
    [(1, -1), (1, 1)]

/-- The bounds test `p.row < 0 || p.row >= 8 || p.col < 0 || p.col >= 8`. -/
def offBoard (p : Position) : Bool :=
  decide (p.row < 0 ∨ 8 ≤ p.row ∨ p.col < 0 ∨ 8 ≤ p.col)

/-- `enemyPos`: the square one step away in direction `d` (lines 187). -/
def enemyOf (pos : Position) (d : Int × Int) : Position :=
  ⟨pos.row + d.1, pos.col + d.2⟩

/-- `landingPos`: the square two steps away in direction `d` (lines 188–191). -/
def landingOf (pos : Position) (d : Int × Int) : Position :=
  ⟨pos.row + 2 * d.1, pos.col + 2 * d.2⟩

/-- The per-direction jump guard of `getCapturesForPiece` (lines 193–212):
landing in bounds, an opposing piece on the adjacent square (read with the
bounds check of lines 202–208), landing square empty. -/
def jumpOK (board : Board) (pos : Position) (piece : Piece) (d : Int × Int) : Bool :=
  if offBoard (landingOf pos d) then false
  else
    match (if offBoard (enemyOf pos d) then none else board (enemyOf pos d)) with
    | none => false
    | some enemyPiece =>
      if enemyPiece.color = piece.color then false
      else (board (landingOf pos d)).isNone

/-- The simulated board of one jump (lines 216–221): clone, remove the captured
piece, put the piece on the landing square, clear the origin.  The writes are
composed in source order, the last one outermost. -/
def capBoard (board : Board) (pos : Position) (piece : Piece) (d : Int × Int) : Board :=
  setCell (setCell (setCell board (enemyOf pos d) none) (landingOf pos d) (some piece)) pos none

/-- The extended move sequence of one jump (lines 223–227). -/
def extendMove (mv : CheckersMove) (pos : Position) (d : Int × Int) : CheckersMove :=
  ⟨mv.from_, mv.path ++ [landingOf pos d], mv.captures ++ [enemyOf pos d]⟩

/-- Weight of a cell for the opponent-piece count (termination measure only,
not part of the source). -/
def cellOpp (col : Color) (cell : Option Piece) : Nat :=
  match cell with
  | some p => if p.color = col then 0 else 1
  | none => 0

/-- The playable coordinate range of the 8×8 board. -/
def playCells : Finset (Int × Int) :=
  Finset.Icc (0 : Int) 7 ×ˢ Finset.Icc (0 : Int) 7

/-- Number of pieces on the 8×8 board whose color differs from `col`
(termination measure for the capture-chain recursion). -/
def countOpp (b : Board) (col : Color) : Nat :=
  ∑ q ∈ playCells, cellOpp col (b ⟨q.1, q.2⟩)

theorem cellOpp_le_one (col : Color) (cell : Option Piece) : cellOpp col cell ≤ 1 := by
  cases cell with
  | none => simp [cellOpp]
  | some p => simp only [cellOpp]; split <;> simp

theorem capBoard_cellOpp_le (board : Board) (pos : Position) (piece : Piece)
    (d : Int × Int) (q : Position) :
    cellOpp piece.color (capBoard board pos piece d q) ≤ cellOpp piece.color (board q) := by
  unfold capBoard setCell
  split_ifs with h1 h2 h3
  · simp [cellOpp]
  · simp [cellOpp]
  · simp [cellOpp]
  · exact Nat.le_refl _

/-- Characterization of the jump guard. -/
theorem jumpOK_iff (board : Board) (pos : Position) (piece : Piece) (d : Int × Int) :
    jumpOK board pos piece d = true ↔
      offBoard (landingOf pos d) = false ∧ offBoard (enemyOf pos d) = false ∧
        (∃ ep, board (enemyOf pos d) = some ep ∧ ep.color ≠ piece.color) ∧
        board (landingOf pos d) = none := by
  unfold jumpOK
  by_cases hl : offBoard (landingOf pos d) = true
  · simp [hl]
  have hl2 : offBoard (landingOf pos d) = false := by
    cases hfl : offBoard (landingOf pos d)
    · rfl
    · exact absurd hfl hl
  by_cases he : offBoard (enemyOf pos d) = true
  · simp [hl2, he]
  have he2 : offBoard (enemyOf pos d) = false := by
    cases hfe : offBoard (enemyOf pos d)
    · rfl
    · exact absurd hfe he
  rcases hb : board (enemyOf pos d) with _ | ep
  · simp [hl2, he2, hb]
  · by_cases hc : ep.color = piece.color
    · simp [hl2, he2, hb, hc]
    · simp [hl2, he2, hb, hc, Option.isNone_iff_eq_none]

/-- The jump guard forces an opposing piece on the adjacent square, in bounds. -/
theorem jumpOK_enemy (board : Board) (pos : Position) (piece : Piece) (d : Int × Int)
    (h : jumpOK board pos piece d = true) :
    offBoard (enemyOf pos d) = false ∧
      ∃ ep, board (enemyOf pos d) = some ep ∧ ep.color ≠ piece.color := by
  have := (jumpOK_iff board pos piece d).mp h
  exact ⟨this.2.1, this.2.2.1⟩

/-- The jump guard forces an empty landing square. -/
theorem jumpOK_landing (board : Board) (pos : Position) (piece : Piece) (d : Int × Int)
    (h : jumpOK board pos piece d = true) :
    offBoard (landingOf pos d) = false ∧ board (landingOf pos d) = none := by
  have := (jumpOK_iff board pos piece d).mp h
  exact ⟨this.1, this.2.2.2⟩

theorem mem_playCells_of_onBoard (p : Position) (h : offBoard p = false) :
    (p.row, p.col) ∈ playCells := by
  unfold offBoard at h
  simp only [decide_eq_false_iff_not, not_or, not_lt, not_le] at h
  simp only [playCells, Finset.mem_product, Finset.mem_Icc]
  omega

/-- Each simulated jump strictly decreases the number of opponent pieces on the
board: the captured piece sits on a playable square and is removed, every other
cell's contribution does not increase. -/
theorem countOpp_capBoard_lt (board : Board) (pos : Position) (piece : Piece)
    (d : Int × Int) (h : jumpOK board pos piece d = true) :
    countOpp (capBoard board pos piece d) piece.color < countOpp board piece.color := by
  obtain ⟨hin, ep, hep, hcol⟩ := jumpOK_enemy board pos piece d h
  have hmem : ((enemyOf pos d).row, (enemyOf pos d).col) ∈ playCells :=
    mem_playCells_of_onBoard _ hin
  unfold countOpp
  apply Finset.sum_lt_sum
  · intro q _
    exact capBoard_cellOpp_le board pos piece d ⟨q.1, q.2⟩
  · refine ⟨((enemyOf pos d).row, (enemyOf pos d).col), hmem, ?_⟩
    have hq : (⟨(enemyOf pos d).row, (enemyOf pos d).col⟩ : Position) = enemyOf pos d := rfl
    rw [hq]
    have hnew : cellOpp piece.color (capBoard board pos piece d (enemyOf pos d)) = 0 := by
      unfold capBoard setCell
      split_ifs with h1 h2
      · simp [cellOpp]
      · simp [cellOpp]
      · simp [cellOpp]
    have hold : cellOpp piece.color (board (enemyOf pos d)) = 1 := by
      rw [hep]; simp [cellOpp, hcol]
    omega

theorem getDirections_length_lt (piece : Piece) : (getDirections piece).length < 5 := by
  unfold getDirections
  split
  · simp
  · split <;> simp

/-- A jump is possible only if at least one opponent piece is on the board. -/
theorem countOpp_pos_of_jumpOK (board : Board) (pos : Position) (piece : Piece)
    (d : Int × Int) (h : jumpOK board pos piece d = true) :
    0 < countOpp board piece.color :=
  Nat.lt_of_le_of_lt (Nat.zero_le _) (countOpp_capBoard_lt board pos piece d h)

mutual

/-- `Checkers.getCapturesForPiece` (lines 168–246): recursively generate all
capture chains for `piece` starting at `pos`.  The direction loop is the
helper `capturesAux` below; `res.1` is the loop's `foundCapture` flag and
`res.2` the accumulated `moves`. -/
def getCapturesForPiece (board : Board) (pos : Position) (piece : Piece)
    (currentMove : Option CheckersMove) : List CheckersMove :=
  let moveSoFar : CheckersMove :=
    match currentMove with
    | some m => ⟨m.from_, m.path, m.captures⟩
    | none => ⟨pos, [], []⟩
  let res := capturesAux board pos piece moveSoFar (getDirections piece)
  if res.1 = false ∧ 0 < moveSoFar.captures.length then [moveSoFar] else res.2
termination_by (countOpp board piece.color, 5)
decreasing_by
  exact Prod.Lex.right _ (getDirections_length_lt piece)

/-- The `for (const d of directions)` loop of `getCapturesForPiece`
(lines 186–240), processing the remaining directions `dirs`.  Returns the
`foundCapture` flag and the moves pushed by the processed iterations, in
source order. -/
def capturesAux (board : Board) (pos : Position) (piece : Piece)
    (moveSoFar : CheckersMove) (dirs : List (Int × Int)) : Bool × List CheckersMove :=
  match dirs with
  | [] => (false, [])
  | d :: rest =>
    let tail := capturesAux board pos piece moveSoFar rest
    if h : jumpOK board pos piece d = true then
      let newMove := extendMove moveSoFar pos d
      let furtherCaptures :=
        getCapturesForPiece (capBoard board pos piece d) (landingOf pos d) piece (some newMove)
      (true, (if furtherCaptures.length > 0 then furtherCaptures else [newMove]) ++ tail.2)
    else
      (tail.1, tail.2)
termination_by (countOpp board piece.color, dirs.length)
decreasing_by
  · exact Prod.Lex.right _ (by simp)
  · exact Prod.Lex.left _ _ (countOpp_capBoard_lt board pos piece d h)

end

/-- The per-direction branch contribution of the direction loop: the deeper
continuations when they exist, otherwise the one-jump extension (lines
229–239).  Defined after the mutual block for use in lemma statements; it
matches the inline expression of `capturesAux` definitionally. -/
def branchMoves (board : Board) (pos : Position) (piece : Piece)
    (moveSoFar : CheckersMove) (d : Int × Int) : List CheckersMove :=
  if (getCapturesForPiece (capBoard board pos piece d) (landingOf pos d) piece
        (some (extendMove moveSoFar pos d))).length > 0 then
    getCapturesForPiece (capBoard board pos piece d) (landingOf pos d) piece
      (some (extendMove moveSoFar pos d))
  else [extendMove moveSoFar pos d]

/-- `Checkers.getSimpleMovesForPiece` (lines 251–272). -/
def getSimpleMovesForPiece (board : Board) (pos : Position) (piece : Piece) :
    List CheckersMove :=
  (getDirections piece).filterMap (fun d =>
    let target : Position := ⟨pos.row + d.1, pos.col + d.2⟩
    if offBoard target then none
    else if board target = none then some ⟨pos, [target], []⟩ else none)

/-- The scan order of the square loops `for r in 0..7, for c in 0..7`. -/
def squares : List (Int × Int) :=
  (List.range 8).flatMap (fun r => (List.range 8).map (fun c => ((r : Int), (c : Int))))

/-- `Checkers.getAllowedMovesForBoard` (lines 141–163): one pass over the
squares accumulating the pair `(allCaptures, allSimple)`, then captures are
mandatory when any exist. -/
def getAllowedMovesForBoard (board : Board) (turn : Color) : List CheckersMove :=
  let pr := squares.foldr (fun rc acc =>
    match board ⟨rc.1, rc.2⟩ with
    | some piece =>
      if piece.color = turn then
        let captures := getCapturesForPiece board ⟨rc.1, rc.2⟩ piece none
        if captures.length > 0 then (captures ++ acc.1, acc.2)
        else (acc.1, getSimpleMovesForPiece board ⟨rc.1, rc.2⟩ piece ++ acc.2)
      else acc
    | none => acc) ([], [])
  if pr.1.length > 0 then pr.1 else pr.2

/-- `Checkers.cloneBoard` (lines 279–281): value copy of every cell. -/
def cloneBoard (board : Board) : Board :=
  fun p =>
    match board p with
    | some cell => some ⟨cell.color, cell.type⟩
    | none => none

/-- `Checkers.updateBoard` (lines 313–339).  The source indexes
`move.path[move.path.length - 1]`; it is only ever called with moves from the
generator, whose paths are non-empty, so the final position is rendered with
`List.getLastD`. -/
def updateBoard (board : Board) (move : CheckersMove) : Board :=
  let newBoard := cloneBoard board
  match newBoard move.from_ with
  | none => newBoard
  | some piece =>
    let b1 := setCell newBoard move.from_ none
    let b2 := move.captures.foldl (fun b cap => setCell b cap none) b1
    let finalPos := move.path.getLastD move.from_
    let newPiece : Piece :=
      if piece.type = PieceType.man then
        if piece.color = Color.red ∧ finalPos.row = 0 then ⟨piece.color, PieceType.king⟩
        else if piece.color = Color.black ∧ finalPos.row = 7 then ⟨piece.color, PieceType.king⟩
        else piece
      else piece
    setCell b2 finalPos (some newPiece)

/-- `Checkers.evaluateBoard` (lines 345–361). -/
def evaluateBoard (board : Board) (perspective : Color) : Int :=
  squares.foldl (fun value rc =>
    match board ⟨rc.1, rc.2⟩ with
    | some piece =>
      let pieceVal : Int := if piece.type = PieceType.man then 10 else 50
      if piece.color = perspective then value + pieceVal else value - pieceVal
    | none => value) 0

/-- `Checkers.getPiece` (lines 46–49): bounds-checked board lookup. -/
def getPiece (board : Board) (pos : Position) : Option Piece :=
  if pos.row < 0 ∨ 8 ≤ pos.row ∨ pos.col < 0 ∨ 8 ≤ pos.col then none
  else board pos

/-- JavaScript numbers as used by the minimax scores: finite integers together
with `-Infinity` and `Infinity` (the initial fold values, lines 400 and 419). -/
inductive JNum where
  | negInf
  | fin (n : Int)
  | posInf
deriving DecidableEq

/-- The JavaScript `<` comparison on scores. -/
def jlt : JNum → JNum → Bool
  | JNum.negInf, JNum.negInf => false
  | JNum.negInf, _ => true
  | JNum.fin _, JNum.negInf => false
  | JNum.fin a, JNum.fin b => decide (a < b)
  | JNum.fin _, JNum.posInf => true
  | JNum.posInf, _ => false

/-- Result record of `Checkers.minimax`. -/
structure MinimaxResult where
  score : JNum
  move : Option CheckersMove
deriving DecidableEq

/-- `Checkers.minimax` (lines 383–438).  The source shuffles the move list
with `Math.random` (Fisher–Yates, lines 366–372, 397) purely as a tie-break;
the shuffle is modelled as an explicit parameter `σ`, with theorems assuming
only that `σ` permutes its input. -/
def minimax (σ : List CheckersMove → List CheckersMove) (board : Board)
    (depth : Nat) (isMax : Bool) (turn perspective : Color) : MinimaxResult :=
  let moves := getAllowedMovesForBoard board turn
  if h : depth = 0 ∨ moves.length = 0 then
    ⟨JNum.fin (evaluateBoard board perspective), none⟩
  else
    let shuffledMoves := σ moves
    if isMax then
      let st := shuffledMoves.foldl
        (fun acc move =>
          let newBoard := updateBoard board move
          let nextTurn : Color := if turn = Color.red then Color.black else Color.red
          let result := minimax σ newBoard (depth - 1) false nextTurn perspective
          if jlt acc.1 result.score then (result.score, some move) else acc)
        (JNum.negInf, none)
      ⟨st.1, st.2⟩
    else
      let st := shuffledMoves.foldl
        (fun acc move =>
          let newBoard := updateBoard board move
          let nextTurn : Color := if turn = Color.red then Color.black else Color.red
          let result := minimax σ newBoard (depth - 1) true nextTurn perspective
          if jlt result.score acc.1 then (result.score, some move) else acc)
        (JNum.posInf, none)
      ⟨st.1, st.2⟩
termination_by depth
decreasing_by
  · omega
  · omega

/-- `Checkers.bestMove` (lines 107–116): root minimax call on a clone of the
board, maximizing for the side to move. -/
def bestMove (σ : List CheckersMove → List CheckersMove) (board : Board)
    (depth : Nat) (turn : Color) : Option CheckersMove :=
  (minimax σ (cloneBoard board) depth true turn turn).move

/-- The initial layout of `Checkers.reset` (lines 29–41). -/
def initialBoard : Board :=
  fun p =>
    if 0 ≤ p.row ∧ p.row < 8 ∧ 0 ≤ p.col ∧ p.col < 8 ∧ (p.row + p.col) % 2 = 1 then
      if p.row < 3 then some ⟨Color.black, PieceType.man⟩
      else if 4 < p.row then some ⟨Color.red, PieceType.man⟩
      else none
    else none

/-! ### The board heap

`updateBoard` first deep-clones the board (line 317) and then mutates only the
clone.  To state the frame property (the input array is not written), boards
are placed in an explicit store of allocated arrays; `heapClone` allocates a
fresh entry and `heapUpdateBoard` performs the write sequence of
`updateBoard` through the fresh reference. -/

/-- A store of allocated board arrays, addressed by index. -/
structure Heap where
  cells : List Board

/-- The empty board value used for out-of-store reads. -/
def emptyBoard : Board := fun _ => none

/-- `cloneBoard` at the store level: allocate a fresh array holding the value
copy, returning the store and the fresh reference. -/
def heapClone (h : Heap) (r : Nat) : Heap × Nat :=
  (⟨h.cells ++ [cloneBoard (h.cells.getD r emptyBoard)]⟩, h.cells.length)

/-- One in-place write `cells[r][p] = v` at the store level. -/
def heapWrite (h : Heap) (r : Nat) (p : Position) (v : Option Piece) : Heap :=
  ⟨h.cells.set r (setCell (h.cells.getD r emptyBoard) p v)⟩

/-- `updateBoard` at the store level: clone, then apply the write sequence of
lines 321–337 through the fresh reference only. -/
def heapUpdateBoard (h : Heap) (r : Nat) (move : CheckersMove) : Heap × Nat :=
  let pr := heapClone h r
  let h1 := pr.1
  let nr := pr.2
  match (h1.cells.getD nr emptyBoard) move.from_ with
  | none => (h1, nr)
  | some piece =>
    let h2 := heapWrite h1 nr move.from_ none
    let h3 := move.captures.foldl (fun hh cap => heapWrite hh nr cap none) h2
    let finalPos := move.path.getLastD move.from_
    let newPiece : Piece :=
      if piece.type = PieceType.man then
        if piece.color = Color.red ∧ finalPos.row = 0 then ⟨piece.color, PieceType.king⟩
        else if piece.color = Color.black ∧ finalPos.row = 7 then ⟨piece.color, PieceType.king⟩
        else piece
      else piece
    (heapWrite h3 nr finalPos (some newPiece), nr)

/-! ### Claim-level descriptions of the generator output -/

/-- The capture moves contributed by one square of the scan. -/
def capturesAt (board : Board) (turn : Color) (rc : Int × Int) : List CheckersMove :=
  match board ⟨rc.1, rc.2⟩ with
  | some piece =>
    if piece.color = turn then getCapturesForPiece board ⟨rc.1, rc.2⟩ piece none else []
  | none => []

/-- The simple moves contributed by one square of the scan (regardless of
whether the piece also has captures). -/
def simplesAt (board : Board) (turn : Color) (rc : Int × Int) : List CheckersMove :=
  match board ⟨rc.1, rc.2⟩ with
  | some piece =>
    if piece.color = turn then getSimpleMovesForPiece board ⟨rc.1, rc.2⟩ piece else []
  | none => []

/-- The union of all capture moves of `turn`'s pieces. -/
def allCapturesList (board : Board) (turn : Color) : List CheckersMove :=
  squares.flatMap (capturesAt board turn)

/-- The union of all simple moves of `turn`'s pieces. -/
def allSimpleList (board : Board) (turn : Color) : List CheckersMove :=
  squares.flatMap (simplesAt board turn)

/-- Whether an immediate jump exists for `piece` at `pos`. -/
def hasJumpB (board : Board) (pos : Position) (piece : Piece) : Bool :=
  (getDirections piece).any (fun d => jumpOK board pos piece d)

/-- Whether any piece of `turn` has a capture available anywhere on the board. -/
def hasAnyCapture (board : Board) (turn : Color) : Bool :=
  squares.any (fun rc =>
    match board ⟨rc.1, rc.2⟩ with
    | some piece => if piece.color = turn then hasJumpB board ⟨rc.1, rc.2⟩ piece else false
    | none => false)

/-- The chain simulation: the board produced by the hop-by-hop writes of the
capture-chain search (remove enemy, place the original piece on the landing
square, clear the current square — lines 216–221), applied along a whole
chain. -/
def chainSim (piece : Piece) : Board → Position → List Position → List Position → Board
  | b, _, [], _ => b
  | b, _, _ :: _, [] => b
  | b, pos, l :: ps, e :: cs =>
    chainSim piece (setCell (setCell (setCell b e none) l (some piece)) pos none) l ps cs

/-- The steps of a capture path: each landing square is two diagonal steps from
the previous position, in a direction available to the (original) piece. -/
def ValidHops (piece : Piece) : Position → List Position → Prop
  | _, [] => True
  | pos, l :: ls => (∃ d ∈ getDirections piece, l = landingOf pos d) ∧ ValidHops piece l ls

/-- `m1` is a strict prefix of `m2`: same origin, and both the path and the
capture sequences of `m1` are proper initial segments of those of `m2`. -/
def IsStrictPre (m1 m2 : CheckersMove) : Prop :=
  m1.from_ = m2.from_ ∧ m1.path <+: m2.path ∧ m1.path ≠ m2.path ∧
    m1.captures <+: m2.captures ∧ m1.captures ≠ m2.captures

/-! ### Structural lemmas about the capture-chain recursion -/

theorem capturesAux_nil (board : Board) (pos : Position) (piece : Piece)
    (mv : CheckersMove) : capturesAux board pos piece mv [] = (false, []) := by
  rw [capturesAux]

theorem capturesAux_cons (board : Board) (pos : Position) (piece : Piece)
    (mv : CheckersMove) (d : Int × Int) (rest : List (Int × Int)) :
    capturesAux board pos piece mv (d :: rest) =
      if jumpOK board pos piece d = true then
        (true, branchMoves board pos piece mv d ++ (capturesAux board pos piece mv rest).2)
      else capturesAux board pos piece mv rest := by
  rw [capturesAux]
  simp only [branchMoves]
  split
  · rfl
  · rfl

theorem capturesAux_found (board : Board) (pos : Position) (piece : Piece)
    (mv : CheckersMove) : ∀ dirs : List (Int × Int),
    (capturesAux board pos piece mv dirs).1 = dirs.any (fun d => jumpOK board pos piece d) := by
  intro dirs
  induction dirs with
  | nil => rw [capturesAux_nil]; rfl
  | cons d rest ih =>
    rw [capturesAux_cons]
    by_cases h : jumpOK board pos piece d = true
    · simp [h]
    · have hf : jumpOK board pos piece d = false := by
        cases hj : jumpOK board pos piece d
        · rfl
        · exact absurd hj h
      simp [hf, ih]

theorem capturesAux_snd_nil (board : Board) (pos : Position) (piece : Piece)
    (mv : CheckersMove) : ∀ dirs : List (Int × Int),
    (capturesAux board pos piece mv dirs).1 = false →
      (capturesAux board pos piece mv dirs).2 = [] := by
  intro dirs
  induction dirs with
  | nil => intro _; rw [capturesAux_nil]
  | cons d rest ih =>
    rw [capturesAux_cons]
    split
    · intro h; simp at h
    · exact ih

theorem branchMoves_ne_nil (board : Board) (pos : Position) (piece : Piece)
    (mv : CheckersMove) (d : Int × Int) : branchMoves board pos piece mv d ≠ [] := by
  unfold branchMoves
  split
  · rename_i hlen
    intro h
    rw [h] at hlen
    simp at hlen
  · simp

theorem capturesAux_snd_ne_nil (board : Board) (pos : Position) (piece : Piece)
    (mv : CheckersMove) : ∀ dirs : List (Int × Int),
    (capturesAux board pos piece mv dirs).1 = true →
      (capturesAux board pos piece mv dirs).2 ≠ [] := by
  intro dirs
  induction dirs with
  | nil => rw [capturesAux_nil]; intro h; simp at h
  | cons d rest ih =>
    rw [capturesAux_cons]
    split
    · intro _
      simp only [ne_eq, List.append_eq_nil]
      intro hc
      exact branchMoves_ne_nil board pos piece mv d hc.1
    · exact ih

theorem capturesAux_mem (board : Board) (pos : Position) (piece : Piece)
    (mv : CheckersMove) : ∀ (dirs : List (Int × Int)) (m : CheckersMove),
    m ∈ (capturesAux board pos piece mv dirs).2 ↔
      ∃ d ∈ dirs, jumpOK board pos piece d = true ∧ m ∈ branchMoves board pos piece mv d := by
  intro dirs m
  induction dirs with
  | nil => rw [capturesAux_nil]; simp
  | cons d rest ih =>
    rw [capturesAux_cons]
    by_cases h : jumpOK board pos piece d = true
    · rw [if_pos h]
      simp only [List.mem_append, List.mem_cons]
      constructor
      · rintro (hm | hm)
        · exact ⟨d, Or.inl rfl, h, hm⟩
        · obtain ⟨e, he, hj, hb⟩ := ih.mp hm
          exact ⟨e, Or.inr he, hj, hb⟩
      · rintro ⟨e, (rfl | he), hj, hb⟩
        · exact Or.inl hb
        · exact Or.inr (ih.mpr ⟨e, he, hj, hb⟩)
    · rw [if_neg h, ih]
      constructor
      · rintro ⟨e, he, hj, hb⟩
        exact ⟨e, List.mem_cons_of_mem d he, hj, hb⟩
      · rintro ⟨e, he, hj, hb⟩
        rcases List.mem_cons.mp he with rfl | he2
        · exact absurd hj h
        · exact ⟨e, he2, hj, hb⟩

theorem getCaptures_some_eq (board : Board) (pos : Position) (piece : Piece)
    (mv : CheckersMove) :
    getCapturesForPiece board pos piece (some mv) =
      if (capturesAux board pos piece mv (getDirections piece)).1 = false ∧
          0 < mv.captures.length then [mv]
      else (capturesAux board pos piece mv (getDirections piece)).2 := by
  rw [getCapturesForPiece]

theorem getCaptures_none_eq (board : Board) (pos : Position) (piece : Piece) :
    getCapturesForPiece board pos piece none =
      (capturesAux board pos piece ⟨pos, [], []⟩ (getDirections piece)).2 := by
  rw [getCapturesForPiece]
  simp

theorem getCaptures_none_eq_some (board : Board) (pos : Position) (piece : Piece) :
    getCapturesForPiece board pos piece none =
      getCapturesForPiece board pos piece (some ⟨pos, [], []⟩) := by
  rw [getCaptures_none_eq, getCaptures_some_eq]
  simp

theorem getCaptures_some_ne_nil (board : Board) (pos : Position) (piece : Piece)
    (mv : CheckersMove) (hmv : mv.captures ≠ []) :
    getCapturesForPiece board pos piece (some mv) ≠ [] := by
  rw [getCaptures_some_eq]
  split
  · simp
  · rename_i hcond
    have hlen : 0 < mv.captures.length := List.length_pos.mpr hmv
    have hfound : (capturesAux board pos piece mv (getDirections piece)).1 = true := by
      by_contra hf
      have : (capturesAux board pos piece mv (getDirections piece)).1 = false := by
        cases hx : (capturesAux board pos piece mv (getDirections piece)).1
        · rfl
        · exact absurd hx hf
      exact hcond ⟨this, hlen⟩
    exact capturesAux_snd_ne_nil board pos piece mv (getDirections piece) hfound

theorem getCaptures_none_nil_iff (board : Board) (pos : Position) (piece : Piece) :
    getCapturesForPiece board pos piece none = [] ↔ hasJumpB board pos piece = false := by
  rw [getCaptures_none_eq]
  have hfound := capturesAux_found board pos piece ⟨pos, [], []⟩ (getDirections piece)
  constructor
  · intro h
    cases hj : (capturesAux board pos piece ⟨pos, [], []⟩ (getDirections piece)).1
    · unfold hasJumpB
      rw [← hfound]
      exact hj
    · exact absurd h (capturesAux_snd_ne_nil board pos piece ⟨pos, [], []⟩ _ hj)
  · intro h
    apply capturesAux_snd_nil
    rw [hfound]
    unfold hasJumpB at h
    exact h

theorem landingOf_ne_pos (board : Board) (pos : Position) (piece : Piece)
    (d : Int × Int) (h : jumpOK board pos piece d = true) : landingOf pos d ≠ pos := by
  intro heq
  have hrow : pos.row + 2 * d.1 = pos.row := congrArg Position.row heq
  have hcol : pos.col + 2 * d.2 = pos.col := congrArg Position.col heq
  have hd1 : d.1 = 0 := by omega
  have hd2 : d.2 = 0 := by omega
  have henemy : enemyOf pos d = pos := by
    unfold enemyOf
    cases pos
    simp [hd1, hd2]
  obtain ⟨_, ep, hep, _⟩ := jumpOK_enemy board pos piece d h
  obtain ⟨_, hland⟩ := jumpOK_landing board pos piece d h
  rw [henemy] at hep
  rw [heq] at hland
  rw [hep] at hland
  exact Option.noConfusion hland

theorem capBoard_at_landing (board : Board) (pos : Position) (piece : Piece)
    (d : Int × Int) (h : jumpOK board pos piece d = true) :
    capBoard board pos piece d (landingOf pos d) = some piece := by
  unfold capBoard setCell
  rw [if_neg (landingOf_ne_pos board pos piece d h), if_pos rfl]

theorem chainSim_capBoard (board : Board) (pos : Position) (piece : Piece)
    (d : Int × Int) (ps cs : List Position) :
    chainSim piece board pos (landingOf pos d :: ps) (enemyOf pos d :: cs) =
      chainSim piece (capBoard board pos piece d) (landingOf pos d) ps cs := rfl

/-- The central invariant of the capture-chain recursion: every emitted move
extends the accumulated move by a non-empty (except at a leaf) suffix of
valid hops, and the chain cannot be extended further — simulating the suffix
leaves the (original, unpromoted) piece on the final landing square with no
further jump available there. -/
theorem captures_mem_rec : ∀ (n : Nat) (board : Board) (pos : Position) (piece : Piece)
    (mv m : CheckersMove), countOpp board piece.color ≤ n →
    m ∈ getCapturesForPiece board pos piece (some mv) →
    ∃ ps cs,
      m.from_ = mv.from_ ∧ m.path = mv.path ++ ps ∧ m.captures = mv.captures ++ cs ∧
      ps.length = cs.length ∧ (ps = [] → mv.captures ≠ []) ∧
      ValidHops piece pos ps ∧
      hasJumpB (chainSim piece board pos ps cs) (ps.getLastD pos) piece = false ∧
      (ps ≠ [] → chainSim piece board pos ps cs (ps.getLastD pos) = some piece) := by
  intro n
  induction n with
  | zero =>
    intro board pos piece mv m hc hm
    have hnoj : ∀ d, jumpOK board pos piece d = false := by
      intro d
      cases hj : jumpOK board pos piece d
      · rfl
      · exact absurd (Nat.le_trans (countOpp_pos_of_jumpOK board pos piece d hj) hc)
          (by omega)
    have hfound : (capturesAux board pos piece mv (getDirections piece)).1 = false := by
      rw [capturesAux_found]
      simp [hnoj]
    rw [getCaptures_some_eq] at hm
    split at hm
    · rename_i hcond
      have hmv : m = mv := List.mem_singleton.mp hm
      subst hmv
      refine ⟨[], [], rfl, by simp, by simp, rfl, ?_, trivial, ?_, by simp⟩
      · intro _
        exact List.length_pos.mp hcond.2
      · unfold hasJumpB chainSim
        simp only [List.getLastD]
        rw [← capturesAux_found board pos piece m (getDirections piece)]
        exact hcond.1
    · rename_i hcond
      exact absurd hm (by
        rw [capturesAux_snd_nil board pos piece mv (getDirections piece) hfound]
        simp)
  | succ n ih =>
    intro board pos piece mv m hc hm
    rw [getCaptures_some_eq] at hm
    split at hm
    · rename_i hcond
      have hmv : m = mv := List.mem_singleton.mp hm
      subst hmv
      refine ⟨[], [], rfl, by simp, by simp, rfl, ?_, trivial, ?_, by simp⟩
      · intro _
        exact List.length_pos.mp hcond.2
      · unfold hasJumpB chainSim
        simp only [List.getLastD]
        rw [← capturesAux_found board pos piece m (getDirections piece)]
        exact hcond.1
    · rename_i hcond
      obtain ⟨d, hd, hj, hbm⟩ := (capturesAux_mem board pos piece mv (getDirections piece) m).mp hm
      unfold branchMoves at hbm
      split at hbm
      · -- deeper continuations
        have hlt := countOpp_capBoard_lt board pos piece d hj
        have hle : countOpp (capBoard board pos piece d) piece.color ≤ n := by omega
        obtain ⟨ps2, cs2, hf2, hp2, hcap2, hlen2, _, hhops2, hjump2, hstore2⟩ :=
          ih (capBoard board pos piece d) (landingOf pos d) piece (extendMove mv pos d) m hle hbm
        refine ⟨landingOf pos d :: ps2, enemyOf pos d :: cs2, hf2, ?_, ?_, by simp [hlen2], by simp, ?_, ?_, ?_⟩
        · rw [hp2]
          simp [extendMove]
        · rw [hcap2]
          simp [extendMove]
        · exact ⟨⟨d, hd, rfl⟩, hhops2⟩
        · rw [chainSim_capBoard, List.getLastD_cons]
          exact hjump2
        · intro _
          rw [chainSim_capBoard, List.getLastD_cons]
          rcases List.eq_nil_or_concat ps2 with hps2 | _
          · subst hps2
            have hcs2 : cs2 = [] := by
              cases cs2
              · rfl
              · simp at hlen2
            subst hcs2
            exact capBoard_at_landing board pos piece d hj
          · rename_i hex
            obtain ⟨l2, a2, hl2⟩ := hex
            apply hstore2
            rw [hl2]
            simp
      · -- the one-jump extension alone: impossible, the recursive call on a move
        -- with non-empty captures never returns the empty list
        rename_i hlen
        exfalso
        apply getCaptures_some_ne_nil (capBoard board pos piece d) (landingOf pos d) piece
          (extendMove mv pos d) (by simp [extendMove])
        have : (getCapturesForPiece (capBoard board pos piece d) (landingOf pos d) piece
            (some (extendMove mv pos d))).length = 0 := by omega
        exact List.length_eq_zero.mp this

/-- Top-level form of the chain invariant, for the root call of the
generator (no accumulated move). -/
theorem captures_top (board : Board) (pos : Position) (piece : Piece) (m : CheckersMove)
    (hm : m ∈ getCapturesForPiece board pos piece none) :
    m.from_ = pos ∧ m.path ≠ [] ∧ m.path.length = m.captures.length ∧
      ValidHops piece pos m.path ∧
      hasJumpB (chainSim piece board pos m.path m.captures) (m.path.getLastD pos) piece
        = false ∧
      chainSim piece board pos m.path m.captures (m.path.getLastD pos) = some piece := by
  rw [getCaptures_none_eq_some] at hm
  obtain ⟨ps, cs, hf, hp, hcap, hlen, hleaf, hhops, hjump, hstore⟩ :=
    captures_mem_rec (countOpp board piece.color) board pos piece ⟨pos, [], []⟩ m le_rfl hm
  simp only [List.nil_append] at hp hcap
  have hne : ps ≠ [] := by
    intro hnil
    exact hleaf hnil rfl
  subst hp
  subst hcap
  exact ⟨hf, hne, by rw [hlen], hhops, hjump, hstore hne⟩

theorem branchMoves_path (board : Board) (pos : Position) (piece : Piece)
    (mv : CheckersMove) (d : Int × Int) (m : CheckersMove)
    (hm : m ∈ branchMoves board pos piece mv d) :
    ∃ tl, m.path = mv.path ++ (landingOf pos d :: tl) := by
  unfold branchMoves at hm
  split at hm
  · obtain ⟨ps, cs, _, hp, _⟩ :=
      captures_mem_rec (countOpp (capBoard board pos piece d) piece.color)
        (capBoard board pos piece d) (landingOf pos d) piece (extendMove mv pos d) m
        le_rfl hm
    refine ⟨ps, ?_⟩
    rw [hp]
    simp [extendMove]
  · have hm2 : m = extendMove mv pos d := List.mem_singleton.mp hm
    subst hm2
    exact ⟨[], by simp [extendMove]⟩

theorem landingOf_inj (pos : Position) (d1 d2 : Int × Int)
    (h : landingOf pos d1 = landingOf pos d2) : d1 = d2 := by
  have hrow : pos.row + 2 * d1.1 = pos.row + 2 * d2.1 := congrArg Position.row h
  have hcol : pos.col + 2 * d1.2 = pos.col + 2 * d2.2 := congrArg Position.col h
  have h1 : d1.1 = d2.1 := by omega
  have h2 : d1.2 = d2.2 := by omega
  exact Prod.ext h1 h2

/-- No move emitted by one call of the capture-chain search is a strict
prefix of another emitted by the same call. -/
theorem captures_no_pre_rec : ∀ (n : Nat) (board : Board) (pos : Position) (piece : Piece)
    (mv : CheckersMove), countOpp board piece.color ≤ n →
    ∀ m1 m2, m1 ∈ getCapturesForPiece board pos piece (some mv) →
      m2 ∈ getCapturesForPiece board pos piece (some mv) → ¬ IsStrictPre m1 m2 := by
  intro n
  induction n with
  | zero =>
    intro board pos piece mv hc m1 m2 h1 h2 hpre
    have hnoj : ∀ d, jumpOK board pos piece d = false := by
      intro d
      cases hj : jumpOK board pos piece d
      · rfl
      · exact absurd (Nat.le_trans (countOpp_pos_of_jumpOK board pos piece d hj) hc)
          (by omega)
    have hfound : (capturesAux board pos piece mv (getDirections piece)).1 = false := by
      rw [capturesAux_found]
      simp [hnoj]
    rw [getCaptures_some_eq] at h1 h2
    by_cases hcond : (capturesAux board pos piece mv (getDirections piece)).1 = false ∧
        0 < mv.captures.length
    · rw [if_pos hcond] at h1 h2
      have e1 : m1 = mv := List.mem_singleton.mp h1
      have e2 : m2 = mv := List.mem_singleton.mp h2
      subst e1; subst e2
      exact hpre.2.2.1 rfl
    · rw [if_neg hcond] at h1
      rw [capturesAux_snd_nil board pos piece mv (getDirections piece) hfound] at h1
      exact absurd h1 (List.not_mem_nil m1)
  | succ n ih =>
    intro board pos piece mv hc m1 m2 h1 h2 hpre
    rw [getCaptures_some_eq] at h1 h2
    by_cases hcond : (capturesAux board pos piece mv (getDirections piece)).1 = false ∧
        0 < mv.captures.length
    · rw [if_pos hcond] at h1 h2
      have e1 : m1 = mv := List.mem_singleton.mp h1
      have e2 : m2 = mv := List.mem_singleton.mp h2
      subst e1; subst e2
      exact hpre.2.2.1 rfl
    · rw [if_neg hcond] at h1 h2
      obtain ⟨d1, hd1, hj1, hb1⟩ :=
        (capturesAux_mem board pos piece mv (getDirections piece) m1).mp h1
      obtain ⟨d2, hd2, hj2, hb2⟩ :=
        (capturesAux_mem board pos piece mv (getDirections piece) m2).mp h2
      by_cases hdd : d1 = d2
      · subst hdd
        unfold branchMoves at hb1 hb2
        by_cases hlen : (getCapturesForPiece (capBoard board pos piece d1)
            (landingOf pos d1) piece (some (extendMove mv pos d1))).length > 0
        · rw [if_pos hlen] at hb1 hb2
          have hle : countOpp (capBoard board pos piece d1) piece.color ≤ n := by
            have := countOpp_capBoard_lt board pos piece d1 hj1
            omega
          exact ih (capBoard board pos piece d1) (landingOf pos d1) piece
            (extendMove mv pos d1) hle m1 m2 hb1 hb2 hpre
        · rw [if_neg hlen] at hb1 hb2
          have e1 : m1 = extendMove mv pos d1 := List.mem_singleton.mp hb1
          have e2 : m2 = extendMove mv pos d1 := List.mem_singleton.mp hb2
          subst e1; subst e2
          exact hpre.2.2.1 rfl
      · obtain ⟨tl1, hp1⟩ := branchMoves_path board pos piece mv d1 m1 hb1
        obtain ⟨tl2, hp2⟩ := branchMoves_path board pos piece mv d2 m2 hb2
        have hpp : m1.path <+: m2.path := hpre.2.1
        rw [hp1, hp2] at hpp
        have hcc := (List.prefix_append_right_inj mv.path).mp hpp
        have hhead := (List.cons_prefix_cons.mp hcc).1
        exact hdd (landingOf_inj pos d1 d2 hhead)

/-! ### Characterization of the square scan -/

theorem capturesAt_of_piece (board : Board) (turn : Color) (rc : Int × Int) (piece : Piece)
    (hb : board ⟨rc.1, rc.2⟩ = some piece) (hcol : piece.color = turn) :
    capturesAt board turn rc = getCapturesForPiece board ⟨rc.1, rc.2⟩ piece none := by
  unfold capturesAt
  rw [hb]
  exact if_pos hcol

theorem simplesAt_of_piece (board : Board) (turn : Color) (rc : Int × Int) (piece : Piece)
    (hb : board ⟨rc.1, rc.2⟩ = some piece) (hcol : piece.color = turn) :
    simplesAt board turn rc = getSimpleMovesForPiece board ⟨rc.1, rc.2⟩ piece := by
  unfold simplesAt
  rw [hb]
  exact if_pos hcol

theorem allowed_fold_pair (board : Board) (turn : Color) : ∀ l : List (Int × Int),
    l.foldr (fun rc acc =>
      match board ⟨rc.1, rc.2⟩ with
      | some piece =>
        if piece.color = turn then
          let captures := getCapturesForPiece board ⟨rc.1, rc.2⟩ piece none
          if captures.length > 0 then (captures ++ acc.1, acc.2)
          else (acc.1, getSimpleMovesForPiece board ⟨rc.1, rc.2⟩ piece ++ acc.2)
        else acc
      | none => acc) ([], []) =
    (l.flatMap (capturesAt board turn),
     l.flatMap (fun rc =>
       if capturesAt board turn rc = [] then simplesAt board turn rc else [])) := by
  intro l
  induction l with
  | nil => rfl
  | cons rc rest ih =>
    simp only [List.foldr_cons, List.flatMap_cons, ih]
    rcases hb : board ⟨rc.1, rc.2⟩ with _ | piece
    · simp [capturesAt, simplesAt, hb]
    · by_cases hcol : piece.color = turn
      · by_cases hcap : (getCapturesForPiece board ⟨rc.1, rc.2⟩ piece none).length > 0
        · have hne : getCapturesForPiece board ⟨rc.1, rc.2⟩ piece none ≠ [] := by
            intro hx
            rw [hx] at hcap
            simp at hcap
          simp [capturesAt, simplesAt, hb, hcol, hcap, hne]
        · have hnil : getCapturesForPiece board ⟨rc.1, rc.2⟩ piece none = [] := by
            rcases hx : getCapturesForPiece board ⟨rc.1, rc.2⟩ piece none with _ | ⟨a, b⟩
            · rfl
            · rw [hx] at hcap; simp at hcap
          simp [capturesAt, simplesAt, hb, hcol, hcap, hnil]
      · simp [capturesAt, simplesAt, hb, hcol]

theorem allowed_eq (board : Board) (turn : Color) :
    getAllowedMovesForBoard board turn =
      if (allCapturesList board turn).length > 0 then allCapturesList board turn
      else squares.flatMap (fun rc =>
        if capturesAt board turn rc = [] then simplesAt board turn rc else []) := by
  unfold getAllowedMovesForBoard allCapturesList
  rw [allowed_fold_pair board turn squares]

theorem hasAnyCapture_iff (board : Board) (turn : Color) :
    hasAnyCapture board turn = true ↔ allCapturesList board turn ≠ [] := by
  unfold hasAnyCapture allCapturesList
  rw [List.any_eq_true]
  constructor
  · rintro ⟨rc, hrc, hpred⟩
    rcases hb : board ⟨rc.1, rc.2⟩ with _ | piece
    · simp only [hb] at hpred; simp at hpred
    · simp only [hb] at hpred
      by_cases hcol : piece.color = turn
      · rw [if_pos hcol] at hpred
        have hne : getCapturesForPiece board ⟨rc.1, rc.2⟩ piece none ≠ [] := by
          intro hnil
          rw [getCaptures_none_nil_iff] at hnil
          rw [hnil] at hpred
          exact Bool.noConfusion hpred
        intro hflat
        rw [List.flatMap_eq_nil_iff] at hflat
        have := hflat rc hrc
        rw [capturesAt_of_piece board turn rc piece hb hcol] at this
        exact hne this
      · rw [if_neg hcol] at hpred
        exact Bool.noConfusion hpred
  · intro hne
    rcases hx : squares.flatMap (capturesAt board turn) with _ | ⟨m, rest⟩
    · exact absurd hx hne
    · have hmem : m ∈ squares.flatMap (capturesAt board turn) := by rw [hx]; simp
      rw [List.mem_flatMap] at hmem
      obtain ⟨rc, hrc, hmc⟩ := hmem
      refine ⟨rc, hrc, ?_⟩
      unfold capturesAt at hmc
      rcases hb : board ⟨rc.1, rc.2⟩ with _ | piece
      · simp only [hb] at hmc; exact absurd hmc (List.not_mem_nil m)
      · simp only [hb] at hmc
        by_cases hcol : piece.color = turn
        · rw [if_pos hcol] at hmc
          simp only [hb]
          rw [if_pos hcol]
          cases hj : hasJumpB board ⟨rc.1, rc.2⟩ piece
          · rw [← getCaptures_none_nil_iff] at hj
            rw [hj] at hmc
            exact absurd hmc (List.not_mem_nil m)
          · rfl
        · rw [if_neg hcol] at hmc
          exact absurd hmc (List.not_mem_nil m)

theorem mem_allCaptures_spec (board : Board) (turn : Color) (m : CheckersMove)
    (hm : m ∈ allCapturesList board turn) :
    ∃ rc ∈ squares, ∃ piece, board ⟨rc.1, rc.2⟩ = some piece ∧ piece.color = turn ∧
      m ∈ getCapturesForPiece board ⟨rc.1, rc.2⟩ piece none := by
  unfold allCapturesList at hm
  rw [List.mem_flatMap] at hm
  obtain ⟨rc, hrc, hmc⟩ := hm
  unfold capturesAt at hmc
  rcases hb : board ⟨rc.1, rc.2⟩ with _ | piece
  · simp only [hb] at hmc; exact absurd hmc (List.not_mem_nil m)
  · simp only [hb] at hmc
    by_cases hcol : piece.color = turn
    · rw [if_pos hcol] at hmc
      exact ⟨rc, hrc, piece, hb, hcol, hmc⟩
    · rw [if_neg hcol] at hmc
      exact absurd hmc (List.not_mem_nil m)

theorem mem_simples_spec (board : Board) (pos : Position) (piece : Piece) (m : CheckersMove)
    (hm : m ∈ getSimpleMovesForPiece board pos piece) :
    ∃ d ∈ getDirections piece,
      offBoard ⟨pos.row + d.1, pos.col + d.2⟩ = false ∧
      board ⟨pos.row + d.1, pos.col + d.2⟩ = none ∧
      m = ⟨pos, [⟨pos.row + d.1, pos.col + d.2⟩], []⟩ := by
  unfold getSimpleMovesForPiece at hm
  rw [List.mem_filterMap] at hm
  obtain ⟨d, hd, hsome⟩ := hm
  refine ⟨d, hd, ?_⟩
  by_cases hoff : offBoard ⟨pos.row + d.1, pos.col + d.2⟩ = true
  · rw [if_pos hoff] at hsome
    exact Option.noConfusion hsome
  have hoff2 : offBoard ⟨pos.row + d.1, pos.col + d.2⟩ = false := by
    cases hx : offBoard ⟨pos.row + d.1, pos.col + d.2⟩
    · rfl
    · exact absurd hx hoff
  rw [if_neg hoff] at hsome
  by_cases hemp : board ⟨pos.row + d.1, pos.col + d.2⟩ = none
  · rw [if_pos hemp] at hsome
    exact ⟨hoff2, hemp, (Option.some.injEq _ _ ▸ hsome.symm : _)⟩
  · rw [if_neg hemp] at hsome
    exact Option.noConfusion hsome

theorem mem_allSimple_spec (board : Board) (turn : Color) (m : CheckersMove)
    (hm : m ∈ allSimpleList board turn) :
    ∃ rc ∈ squares, ∃ piece, board ⟨rc.1, rc.2⟩ = some piece ∧ piece.color = turn ∧
      m ∈ getSimpleMovesForPiece board ⟨rc.1, rc.2⟩ piece := by
  unfold allSimpleList at hm
  rw [List.mem_flatMap] at hm
  obtain ⟨rc, hrc, hmc⟩ := hm
  unfold simplesAt at hmc
  rcases hb : board ⟨rc.1, rc.2⟩ with _ | piece
  · simp only [hb] at hmc; exact absurd hmc (List.not_mem_nil m)
  · simp only [hb] at hmc
    by_cases hcol : piece.color = turn
    · rw [if_pos hcol] at hmc
      exact ⟨rc, hrc, piece, hb, hcol, hmc⟩
    · rw [if_neg hcol] at hmc
      exact absurd hmc (List.not_mem_nil m)

/-- A capture move emitted at the top level has non-empty captures. -/
theorem captures_top_ne (board : Board) (pos : Position) (piece : Piece) (m : CheckersMove)
    (hm : m ∈ getCapturesForPiece board pos piece none) : m.captures ≠ [] := by
  obtain ⟨_, hpne, hlen, _⟩ := captures_top board pos piece m hm
  intro hnil
  rw [hnil] at hlen
  have hz : m.path.length = 0 := by simpa using hlen
  exact hpne (List.length_eq_zero.mp hz)

/-! ### Board model lemmas -/

/-- The deep copy agrees with the original at every cell. -/
theorem cloneBoard_apply (b : Board) (p : Position) : cloneBoard b p = b p := by
  unfold cloneBoard
  cases b p
  · rfl
  · rfl

theorem cloneBoard_eq (b : Board) : cloneBoard b = b :=
  funext (cloneBoard_apply b)

/-- Zero-sum of the evaluation fold: stepping the red-perspective and the
black-perspective accumulators over the same cells preserves their sum. -/
theorem eval_sym_aux (board : Board) : ∀ (l : List (Int × Int)) (v w : Int),
    l.foldl (fun value rc =>
      match board ⟨rc.1, rc.2⟩ with
      | some piece =>
        let pieceVal : Int := if piece.type = PieceType.man then 10 else 50
        if piece.color = Color.red then value + pieceVal else value - pieceVal
      | none => value) v
    + l.foldl (fun value rc =>
      match board ⟨rc.1, rc.2⟩ with
      | some piece =>
        let pieceVal : Int := if piece.type = PieceType.man then 10 else 50
        if piece.color = Color.black then value + pieceVal else value - pieceVal
      | none => value) w = v + w := by
  intro l
  induction l with
  | nil => intro v w; simp
  | cons rc rest ih =>
    intro v w
    simp only [List.foldl_cons]
    rcases hb : board ⟨rc.1, rc.2⟩ with _ | piece
    · simp only [hb]
      exact ih v w
    · simp only [hb]
      cases hc : piece.color
      · simp only [hc, reduceCtorEq, if_true, if_false]
        rw [ih]
        ring
      · simp only [hc, reduceCtorEq, if_true, if_false]
        rw [ih]
        ring

theorem updateBoard_getLastD (b : Board) (m : CheckersMove) (p : Piece)
    (hb : b m.from_ = some p) :
    updateBoard b m (m.path.getLastD m.from_) =
      some (if p.type = PieceType.man then
              if p.color = Color.red ∧ (m.path.getLastD m.from_).row = 0 then
                ⟨p.color, PieceType.king⟩
              else if p.color = Color.black ∧ (m.path.getLastD m.from_).row = 7 then
                ⟨p.color, PieceType.king⟩
              else p
            else p) := by
  unfold updateBoard
  rw [cloneBoard_eq]
  simp only [hb]
  unfold setCell
  rw [if_pos rfl]

/-! ### Minimax lemmas -/

theorem jlt_negInf_fin (z : Int) : jlt JNum.negInf (JNum.fin z) = true := rfl

theorem jlt_fin_posInf (z : Int) : jlt (JNum.fin z) JNum.posInf = true := rfl

/-- The selection fold of the minimax loops: starting from an infinite
sentinel and a null move, folding over a non-empty list of moves whose
values are all finite yields a finite score and a move from the list.
`g acc.1 (f m) = true` is the source's strict-improvement test. -/
theorem foldl_sel (f : CheckersMove → JNum) (g : JNum → JNum → Bool) (init : JNum)
    (hfin : ∀ mv, ∃ z, f mv = JNum.fin z)
    (hinit : ∀ z : Int, g init (JNum.fin z) = true) :
    ∀ ms : List CheckersMove, ms ≠ [] →
      ∃ z mv, mv ∈ ms ∧
        ms.foldl (fun acc m => if g acc.1 (f m) then (f m, some m) else acc)
          (init, (none : Option CheckersMove)) = (JNum.fin z, some mv) := by
  have hstage : ∀ (ms : List CheckersMove) (z0 : Int) (mv0 : CheckersMove),
      ∃ z mv, (mv = mv0 ∨ mv ∈ ms) ∧
        ms.foldl (fun acc m => if g acc.1 (f m) then (f m, some m) else acc)
          (JNum.fin z0, some mv0) = (JNum.fin z, some mv) := by
    intro ms
    induction ms with
    | nil => intro z0 mv0; exact ⟨z0, mv0, Or.inl rfl, rfl⟩
    | cons m rest ih =>
      intro z0 mv0
      simp only [List.foldl_cons]
      by_cases hg : g (JNum.fin z0) (f m) = true
      · rw [if_pos hg]
        obtain ⟨zm, hzm⟩ := hfin m
        rw [hzm]
        obtain ⟨z, mv, hmem, heq⟩ := ih zm m
        refine ⟨z, mv, ?_, heq⟩
        rcases hmem with rfl | hmem
        · exact Or.inr (List.mem_cons_self _ _)
        · exact Or.inr (List.mem_cons_of_mem _ hmem)
      · rw [if_neg hg]
        obtain ⟨z, mv, hmem, heq⟩ := ih z0 mv0
        refine ⟨z, mv, ?_, heq⟩
        rcases hmem with rfl | hmem
        · exact Or.inl rfl
        · exact Or.inr (List.mem_cons_of_mem _ hmem)
  intro ms hne
  cases ms with
  | nil => exact absurd rfl hne
  | cons m rest =>
    simp only [List.foldl_cons]
    obtain ⟨zm, hzm⟩ := hfin m
    rw [hzm, if_pos (hinit zm)]
    obtain ⟨z, mv, hmem, heq⟩ := hstage rest zm m
    refine ⟨z, mv, ?_, heq⟩
    rcases hmem with rfl | hmem
    · exact List.mem_cons_self _ _
    · exact List.mem_cons_of_mem _ hmem

/-- Behaviour of the minimax search for any permutation-only shuffle: the
score is always a finite number, the returned move is null exactly at a
terminal node (depth 0 or no legal moves), and any returned move is one of
the legal moves of the side to move. -/
theorem minimax_spec (σ : List CheckersMove → List CheckersMove)
    (hσ : ∀ l : List CheckersMove, List.Perm (σ l) l) :
    ∀ (depth : Nat) (board : Board) (isMax : Bool) (turn perspective : Color),
      (∃ z, (minimax σ board depth isMax turn perspective).score = JNum.fin z) ∧
      ((minimax σ board depth isMax turn perspective).move = none ↔
        (depth = 0 ∨ getAllowedMovesForBoard board turn = [])) ∧
      (∀ m, (minimax σ board depth isMax turn perspective).move = some m →
        m ∈ getAllowedMovesForBoard board turn) := by
  intro depth
  induction depth with
  | zero =>
    intro board isMax turn perspective
    rw [minimax, dif_pos (Or.inl rfl)]
    refine ⟨⟨evaluateBoard board perspective, rfl⟩, by simp, by simp⟩
  | succ n ih =>
    intro board isMax turn perspective
    by_cases hmoves : getAllowedMovesForBoard board turn = []
    · rw [minimax, dif_pos (Or.inr (by rw [hmoves]; rfl))]
      refine ⟨⟨evaluateBoard board perspective, rfl⟩, by simp [hmoves], by simp⟩
    · have hcond : ¬(n + 1 = 0 ∨ (getAllowedMovesForBoard board turn).length = 0) := by
        push_neg
        exact ⟨Nat.succ_ne_zero n, fun h => hmoves (List.length_eq_zero.mp h)⟩
      have hperm := hσ (getAllowedMovesForBoard board turn)
      have hσne : σ (getAllowedMovesForBoard board turn) ≠ [] := by
        intro h0
        apply hmoves
        have hl := hperm.length_eq
        rw [h0] at hl
        exact List.length_eq_zero.mp hl.symm
      rw [minimax, dif_neg hcond]
      cases isMax
      · rw [if_neg (by simp)]
        obtain ⟨z, mv, hmem, heq⟩ :=
          foldl_sel
            (fun move => (minimax σ (updateBoard board move) (n + 1 - 1) true
              (if turn = Color.red then Color.black else Color.red) perspective).score)
            (fun a b => jlt b a) JNum.posInf
            (fun move => (ih (updateBoard board move) true
              (if turn = Color.red then Color.black else Color.red) perspective).1)
            (fun z => rfl)
            (σ (getAllowedMovesForBoard board turn)) hσne
        rw [heq]
        refine ⟨⟨z, rfl⟩, by simp [hmoves], ?_⟩
        intro m hm
        have : mv = m := by simpa using hm
        subst this
        exact hperm.mem_iff.mp hmem
      · rw [if_pos rfl]
        obtain ⟨z, mv, hmem, heq⟩ :=
          foldl_sel
            (fun move => (minimax σ (updateBoard board move) (n + 1 - 1) false
              (if turn = Color.red then Color.black else Color.red) perspective).score)
            jlt JNum.negInf
            (fun move => (ih (updateBoard board move) false
              (if turn = Color.red then Color.black else Color.red) perspective).1)
            (fun z => rfl)
            (σ (getAllowedMovesForBoard board turn)) hσne
        rw [heq]
        refine ⟨⟨z, rfl⟩, by simp [hmoves], ?_⟩
        intro m hm
        have : mv = m := by simpa using hm
        subst this
        exact hperm.mem_iff.mp hmem

/-! ### Heap lemmas -/

theorem heapWrite_get_ne (h : Heap) (r i : Nat) (p : Position) (v : Option Piece)
    (hne : i ≠ r) : (heapWrite h r p v).cells[i]? = h.cells[i]? := by
  unfold heapWrite
  exact List.getElem?_set_ne (fun he => hne he.symm)

theorem heapWrite_length (h : Heap) (r : Nat) (p : Position) (v : Option Piece) :
    (heapWrite h r p v).cells.length = h.cells.length := by
  unfold heapWrite
  exact List.length_set h.cells r _

theorem heap_writes_fold_get_ne (nr i : Nat) (hne : i ≠ nr) :
    ∀ (caps : List Position) (hh : Heap),
      ((caps.foldl (fun a c => heapWrite a nr c none) hh).cells[i]? = hh.cells[i]?) := by
  intro caps
  induction caps with
  | nil => intro hh; rfl
  | cons c rest ih =>
    intro hh
    simp only [List.foldl_cons]
    rw [ih]
    exact heapWrite_get_ne hh nr i c none hne

theorem heapClone_get_lt (h : Heap) (r i : Nat) (hi : i < h.cells.length) :
    (heapClone h r).1.cells[i]? = h.cells[i]? := by
  unfold heapClone
  rw [List.getElem?_append, if_pos hi]

/-- The array written by `heapUpdateBoard` is the fresh clone only; the cell
holding the input board is untouched. -/
theorem heapUpdateBoard_frame (h : Heap) (r : Nat) (m : CheckersMove)
    (hr : r < h.cells.length) :
    (heapUpdateBoard h r m).1.cells[r]? = h.cells[r]? := by
  unfold heapUpdateBoard
  have hnr : r ≠ h.cells.length := Nat.ne_of_lt hr
  have hnr2 : r ≠ (heapClone h r).2 := hnr
  rcases hc : (heapClone h r).1.cells.getD (heapClone h r).2 emptyBoard m.from_ with _ | piece
  · simp only [hc]
    exact heapClone_get_lt h r r hr
  · simp only [hc]
    rw [heapWrite_get_ne _ _ _ _ _ hnr2]
    rw [heap_writes_fold_get_ne (heapClone h r).2 r hnr2 m.captures]
    rw [heapWrite_get_ne _ _ _ _ _ hnr2]
    exact heapClone_get_lt h r r hr

/-- The reference returned by `heapClone` is fresh: it differs from every
previously allocated reference. -/
theorem heapClone_fresh (h : Heap) (r : Nat) (hr : r < h.cells.length) :
    (heapClone h r).2 ≠ r := by
  unfold heapClone
  exact fun he => absurd (he ▸ hr) (Nat.lt_irrefl _)

/-- The fresh array allocated by `heapClone` holds, cell for cell, the same
values as the source board. -/
theorem heapClone_content (h : Heap) (r : Nat) (p : Position) :
    (heapClone h r).1.cells.getD (heapClone h r).2 emptyBoard p =
      (h.cells.getD r emptyBoard) p := by
  unfold heapClone
  simp only [List.getD, List.get?_eq_getElem?]
  rw [List.getElem?_append_right (Nat.le_refl _)]
  simp [cloneBoard_apply]

/-! ### A fuelled, structurally recursive form of the capture search

The well-founded recursion above mirrors the source; for evaluating the
generator on concrete boards we re-express one unfolding step as a function
of the recursive call and iterate it structurally on a fuel bound.  Fuel 65
always suffices because at most 64 opponent pieces fit on the board, and each
recursive call removes one. -/

/-- One unfolding step of `getCapturesForPiece`, parameterized by the
function used for the recursive call. -/
def capturesStep (rec : Board → Position → Option CheckersMove → List CheckersMove)
    (board : Board) (pos : Position) (piece : Piece)
    (currentMove : Option CheckersMove) : List CheckersMove :=
  let moveSoFar : CheckersMove :=
    match currentMove with
    | some m => ⟨m.from_, m.path, m.captures⟩
    | none => ⟨pos, [], []⟩
  let res := (getDirections piece).foldr
    (fun d tail =>
      if jumpOK board pos piece d = true then
        (true,
          (if (rec (capBoard board pos piece d) (landingOf pos d)
                (some (extendMove moveSoFar pos d))).length > 0 then
            rec (capBoard board pos piece d) (landingOf pos d)
              (some (extendMove moveSoFar pos d))
          else [extendMove moveSoFar pos d]) ++ tail.2)
      else tail)
    ((false : Bool), ([] : List CheckersMove))
  if res.1 = false ∧ 0 < moveSoFar.captures.length then [moveSoFar] else res.2

/-- Fuel-bounded capture search; agrees with `getCapturesForPiece` whenever
the fuel exceeds the number of opponent pieces. -/
def capturesFuel (piece : Piece) : Nat → Board → Position → Option CheckersMove →
    List CheckersMove
  | 0, _, _, _ => []
  | fuel + 1, board, pos, curr => capturesStep (capturesFuel piece fuel) board pos piece curr

theorem capturesAux_eq_foldr (board : Board) (pos : Position) (piece : Piece)
    (mv : CheckersMove) (rec : Board → Position → Option CheckersMove → List CheckersMove)
    (hrec : ∀ d, jumpOK board pos piece d = true →
      getCapturesForPiece (capBoard board pos piece d) (landingOf pos d) piece
          (some (extendMove mv pos d)) =
        rec (capBoard board pos piece d) (landingOf pos d) (some (extendMove mv pos d))) :
    ∀ dirs : List (Int × Int),
    capturesAux board pos piece mv dirs = dirs.foldr
      (fun d tail =>
        if jumpOK board pos piece d = true then
          (true,
            (if (rec (capBoard board pos piece d) (landingOf pos d)
                  (some (extendMove mv pos d))).length > 0 then
              rec (capBoard board pos piece d) (landingOf pos d)
                (some (extendMove mv pos d))
            else [extendMove mv pos d]) ++ tail.2)
        else tail)
      ((false : Bool), ([] : List CheckersMove)) := by
  intro dirs
  induction dirs with
  | nil => rw [capturesAux_nil]; rfl
  | cons d rest ih =>
    rw [capturesAux_cons, ih, List.foldr_cons]
    by_cases hj : jumpOK board pos piece d = true
    · rw [if_pos hj, if_pos hj]
      unfold branchMoves
      rw [hrec d hj]
    · rw [if_neg hj, if_neg hj]

theorem getCaptures_eq_fuel : ∀ (fuel : Nat) (board : Board) (pos : Position)
    (piece : Piece) (curr : Option CheckersMove),
    countOpp board piece.color < fuel →
    getCapturesForPiece board pos piece curr = capturesFuel piece fuel board pos curr := by
  intro fuel
  induction fuel with
  | zero => intro board pos piece curr h; omega
  | succ n ih =>
    intro board pos piece curr hlt
    cases curr with
    | none =>
      rw [getCaptures_none_eq]
      show _ = capturesStep (capturesFuel piece n) board pos piece none
      unfold capturesStep
      rw [capturesAux_eq_foldr board pos piece ⟨pos, [], []⟩ (capturesFuel piece n)
        (fun d hj => ih (capBoard board pos piece d) (landingOf pos d) piece
          (some (extendMove ⟨pos, [], []⟩ pos d))
          (by
            have := countOpp_capBoard_lt board pos piece d hj
            omega))]
      simp
    | some mv =>
      rw [getCaptures_some_eq]
      show _ = capturesStep (capturesFuel piece n) board pos piece (some mv)
      unfold capturesStep
      rw [capturesAux_eq_foldr board pos piece mv (capturesFuel piece n)
        (fun d hj => ih (capBoard board pos piece d) (landingOf pos d) piece
          (some (extendMove mv pos d))
          (by
            have := countOpp_capBoard_lt board pos piece d hj
            omega))]

/-- The board has 64 playable squares, so at most 64 opponent pieces. -/
theorem countOpp_le_64 (b : Board) (col : Color) : countOpp b col ≤ 64 := by
  unfold countOpp
  calc ∑ q ∈ playCells, cellOpp col (b ⟨q.1, q.2⟩)
      ≤ ∑ _q ∈ playCells, 1 := Finset.sum_le_sum (fun q _ => cellOpp_le_one col _)
    _ = playCells.card := by simp
    _ ≤ 64 := by
        unfold playCells
        rw [Finset.card_product]
        simp [Int.card_Icc]

/-- Computation bridge: the source's capture search coincides with the
fuelled search at fuel 65 on every input. -/
theorem getCaptures_eq_fuel65 (board : Board) (pos : Position) (piece : Piece)
    (curr : Option CheckersMove) :
    getCapturesForPiece board pos piece curr = capturesFuel piece 65 board pos curr :=
  getCaptures_eq_fuel 65 board pos piece curr
    (Nat.lt_of_le_of_lt (countOpp_le_64 board piece.color) (by omega))

/-! ### Remaining helpers for the claim theorems -/

theorem flatMap_congr_of_mem {α β : Type} (f g : α → List β) :
    ∀ l : List α, (∀ x ∈ l, f x = g x) → l.flatMap f = l.flatMap g := by
  intro l
  induction l with
  | nil => intro _; rfl
  | cons a rest ih =>
    intro h
    simp only [List.flatMap_cons]
    rw [h a (by simp), ih (fun x hx => h x (by simp [hx]))]

theorem mem_guarded_simple (board : Board) (turn : Color) (m : CheckersMove)
    (hm : m ∈ squares.flatMap (fun rc =>
      if capturesAt board turn rc = [] then simplesAt board turn rc else [])) :
    ∃ rc ∈ squares, m ∈ simplesAt board turn rc := by
  rw [List.mem_flatMap] at hm
  obtain ⟨rc, hrc, hmc⟩ := hm
  split at hmc
  · exact ⟨rc, hrc, hmc⟩
  · exact absurd hmc (List.not_mem_nil m)

theorem mem_simplesAt_shape (board : Board) (turn : Color) (rc : Int × Int)
    (m : CheckersMove) (hm : m ∈ simplesAt board turn rc) :
    m.captures = [] ∧ m.path.length = 1 := by
  unfold simplesAt at hm
  rcases hb : board ⟨rc.1, rc.2⟩ with _ | piece
  · simp only [hb] at hm
    exact absurd hm (List.not_mem_nil m)
  · simp only [hb] at hm
    by_cases hcol : piece.color = turn
    · rw [if_pos hcol] at hm
      obtain ⟨d, _, _, _, heq⟩ := mem_simples_spec board ⟨rc.1, rc.2⟩ piece m hm
      subst heq
      exact ⟨rfl, rfl⟩
    · rw [if_neg hcol] at hm
      exact absurd hm (List.not_mem_nil m)

theorem pre_length_lt {α : Type} (a b : List α) (h : a <+: b) (hne : a ≠ b) :
    a.length < b.length := by
  rcases Nat.lt_or_ge a.length b.length with hl | hl
  · exact hl
  · exact absurd (h.eq_of_length (Nat.le_antisymm h.length_le hl)) hne

/-! ### Concrete boards and moves used as witnesses -/

/-- The empty board. -/
def bEmpty : Board := fun _ => none

/-- A single red man at (5,0). -/
def bOne : Board := fun p => if p = ⟨5, 0⟩ then some ⟨Color.red, PieceType.man⟩ else none

/-- A red man at (5,2) that can jump black men at (4,3) and then (2,5). -/
def bTwoJump : Board := fun p =>
  if p = ⟨5, 2⟩ then some ⟨Color.red, PieceType.man⟩
  else if p = ⟨4, 3⟩ then some ⟨Color.black, PieceType.man⟩
  else if p = ⟨2, 5⟩ then some ⟨Color.black, PieceType.man⟩
  else none

/-- The full two-jump chain on `bTwoJump`. -/
def mTwoJump : CheckersMove := ⟨⟨5, 2⟩, [⟨3, 4⟩, ⟨1, 6⟩], [⟨4, 3⟩, ⟨2, 5⟩]⟩

/-- Its one-jump strict prefix. -/
def mOneJump : CheckersMove := ⟨⟨5, 2⟩, [⟨3, 4⟩], [⟨4, 3⟩]⟩

/-- A red man one step from the back rank. -/
def bPromo : Board := fun p => if p = ⟨1, 2⟩ then some ⟨Color.red, PieceType.man⟩ else none

/-- The promoting step on `bPromo`. -/
def mPromo : CheckersMove := ⟨⟨1, 2⟩, [⟨0, 3⟩], []⟩

/-- A black man at (5,2) that jumps the red man at (6,3), landing on the back
rank (7,4); the red man at (6,5) could only be jumped with a king's backward
direction. -/
def bMidChain : Board := fun p =>
  if p = ⟨5, 2⟩ then some ⟨Color.black, PieceType.man⟩
  else if p = ⟨6, 3⟩ then some ⟨Color.red, PieceType.man⟩
  else if p = ⟨6, 5⟩ then some ⟨Color.red, PieceType.man⟩
  else none

/-- The single jump to the back rank on `bMidChain`. -/
def mMidChain : CheckersMove := ⟨⟨5, 2⟩, [⟨7, 4⟩], [⟨6, 3⟩]⟩

/-! ### Claim theorems -/

/-- C1: `getAllowedMovesForBoard` is all-captures or all-simple, never mixed:
if any piece of `turn` has a capture available anywhere, the result is
exactly the union of all capture moves of `turn`'s pieces (and contains no
simple move — every returned move has non-empty captures); if no piece has a
capture, the result is the union of all simple moves of `turn`'s pieces. -/
theorem c1_mandatory_capture (board : Board) (turn : Color) :
    (hasAnyCapture board turn = true →
      getAllowedMovesForBoard board turn = allCapturesList board turn ∧
      ∀ m ∈ getAllowedMovesForBoard board turn, m.captures ≠ []) ∧
    (hasAnyCapture board turn = false →
      getAllowedMovesForBoard board turn = allSimpleList board turn) := by
  constructor
  · intro h
    have hne := (hasAnyCapture_iff board turn).mp h
    have hlen : (allCapturesList board turn).length > 0 := List.length_pos.mpr hne
    have heq : getAllowedMovesForBoard board turn = allCapturesList board turn := by
      rw [allowed_eq, if_pos hlen]
    refine ⟨heq, ?_⟩
    intro m hm
    rw [heq] at hm
    obtain ⟨rc, _, piece, _, _, hmc⟩ := mem_allCaptures_spec board turn m hm
    exact captures_top_ne board ⟨rc.1, rc.2⟩ piece m hmc
  · intro h
    have hnil : allCapturesList board turn = [] := by
      by_contra hne
      have htrue : hasAnyCapture board turn = true := (hasAnyCapture_iff board turn).mpr hne
      rw [h] at htrue
      exact Bool.noConfusion htrue
    rw [allowed_eq, if_neg (by rw [hnil]; simp)]
    unfold allSimpleList
    apply flatMap_congr_of_mem
    intro rc hrc
    rw [if_pos (List.flatMap_eq_nil_iff.mp hnil rc hrc)]

/-- C2: capture chains are maximal.  No returned move is a strict prefix of
another returned move; and every returned capture move, once its chain is
simulated on the board, leaves the moving piece on its final landing square
with no further jump available there (so a chain that could be extended is
never returned). -/
theorem c2_maximal_capture_chains (board : Board) (turn : Color) :
    (∀ m1 ∈ getAllowedMovesForBoard board turn,
      ∀ m2 ∈ getAllowedMovesForBoard board turn, ¬ IsStrictPre m1 m2) ∧
    (∀ m ∈ getAllowedMovesForBoard board turn, m.captures ≠ [] →
      ∃ piece, board m.from_ = some piece ∧ piece.color = turn ∧
        hasJumpB (chainSim piece board m.from_ m.path m.captures)
          (m.path.getLastD m.from_) piece = false) := by
  constructor
  · intro m1 h1 m2 h2 hpre
    rw [allowed_eq] at h1 h2
    split at h1
    · rename_i hlen
      rw [if_pos hlen] at h2
      obtain ⟨rc1, _, p1, hb1, hc1, hm1⟩ := mem_allCaptures_spec board turn m1 h1
      obtain ⟨rc2, _, p2, hb2, hc2, hm2⟩ := mem_allCaptures_spec board turn m2 h2
      have hf1 := (captures_top _ _ _ _ hm1).1
      have hf2 := (captures_top _ _ _ _ hm2).1
      have hposeq : (⟨rc1.1, rc1.2⟩ : Position) = ⟨rc2.1, rc2.2⟩ := by
        rw [← hf1, ← hf2, hpre.1]
      rw [hposeq] at hb1 hm1
      have hp : p1 = p2 := by
        rw [hb1] at hb2
        exact Option.some.inj hb2
      subst hp
      rw [getCaptures_none_eq_some] at hm1 hm2
      exact captures_no_pre_rec (countOpp board p1.color) board ⟨rc2.1, rc2.2⟩ p1
        ⟨⟨rc2.1, rc2.2⟩, [], []⟩ le_rfl m1 m2 hm1 hm2 hpre
    · rename_i hlen
      rw [if_neg hlen] at h2
      obtain ⟨rc1, _, hs1⟩ := mem_guarded_simple board turn m1 h1
      obtain ⟨rc2, _, hs2⟩ := mem_guarded_simple board turn m2 h2
      have sh1 := mem_simplesAt_shape board turn rc1 m1 hs1
      have sh2 := mem_simplesAt_shape board turn rc2 m2 hs2
      have := pre_length_lt m1.path m2.path hpre.2.1 hpre.2.2.1
      omega
  · intro m hm hcap
    rw [allowed_eq] at hm
    split at hm
    · obtain ⟨rc, _, piece, hb, hcol, hmc⟩ := mem_allCaptures_spec board turn m hm
      obtain ⟨hf, _, _, _, hjump, _⟩ := captures_top board ⟨rc.1, rc.2⟩ piece m hmc
      refine ⟨piece, ?_, hcol, ?_⟩
      · rw [hf]; exact hb
      · rw [hf]; exact hjump
    · obtain ⟨rc, _, hs⟩ := mem_guarded_simple board turn m hm
      exact absurd (mem_simplesAt_shape board turn rc m hs).1 hcap

/-- C3: for positive depth, the root search returns no move exactly when the
side to move has no legal moves, and any returned move is a legal move. -/
theorem c3_bestmove_root (σ : List CheckersMove → List CheckersMove)
    (hσ : ∀ l : List CheckersMove, List.Perm (σ l) l)
    (board : Board) (turn : Color) (depth : Nat) (hd : 0 < depth) :
    (bestMove σ board depth turn = none ↔ getAllowedMovesForBoard board turn = []) ∧
    (∀ m, bestMove σ board depth turn = some m →
      m ∈ getAllowedMovesForBoard board turn) := by
  have hs := minimax_spec σ hσ depth board true turn turn
  unfold bestMove
  rw [cloneBoard_eq]
  refine ⟨?_, hs.2.2⟩
  rw [hs.2.1]
  constructor
  · rintro (h0 | hmv)
    · exact absurd h0 (by omega)
    · exact hmv
  · intro h
    exact Or.inr h

/-- C4: `updateBoard` promotes exactly at the back rank: the destination
square of the new board holds the moved piece, whose type is `king` when a
red man ends on row 0 or a black man on row 7, and is unchanged otherwise
(in particular a king stays a king). -/
theorem c4_promotion_back_rank (b : Board) (m : CheckersMove) (p : Piece)
    (hb : b m.from_ = some p) (hne : m.path ≠ []) :
    updateBoard b m (m.path.getLast hne) =
      some ⟨p.color,
        if p.type = PieceType.man ∧
            ((p.color = Color.red ∧ (m.path.getLast hne).row = 0) ∨
             (p.color = Color.black ∧ (m.path.getLast hne).row = 7)) then PieceType.king
        else p.type⟩ := by
  have hLD : m.path.getLastD m.from_ = m.path.getLast hne := by
    rw [List.getLastD_eq_getLast?, List.getLast?_eq_getLast m.path hne]
    rfl
  rw [← hLD]
  rw [updateBoard_getLastD b m p hb]
  generalize m.path.getLastD m.from_ = q
  rcases p with ⟨pc, pt⟩
  cases pt <;> cases pc <;>
    by_cases h0 : q.row = 0 <;> by_cases h7 : q.row = 7 <;> simp [h0, h7]

/-- C5: the material evaluation is zero-sum between the two perspectives. -/
theorem c5_evaluation_symmetry (board : Board) :
    evaluateBoard board Color.red = - evaluateBoard board Color.black := by
  unfold evaluateBoard
  have h := eval_sym_aux board squares 0 0
  omega

/-- C6: `updateBoard` and `cloneBoard` never mutate their input board: in
the store model, after `heapUpdateBoard` (clone plus the write sequence of
the source, all through the fresh reference) the array cell holding the
input board is unchanged, the clone's reference is distinct from the
input's, and the clone holds the same cell values as the input. -/
theorem c6_update_no_mutation (h : Heap) (r : Nat) (m : CheckersMove)
    (hr : r < h.cells.length) :
    (heapUpdateBoard h r m).1.cells[r]? = h.cells[r]? ∧
    (heapClone h r).1.cells[r]? = h.cells[r]? ∧
    (heapClone h r).2 ≠ r ∧
    ∀ p, (heapClone h r).1.cells.getD (heapClone h r).2 emptyBoard p =
      (h.cells.getD r emptyBoard) p :=
  ⟨heapUpdateBoard_frame h r m hr, heapClone_get_lt h r r hr,
    heapClone_fresh h r hr, heapClone_content h r⟩

/-- C7: every hop of every generated capture chain uses a direction of the
original piece value, and the simulated board stores that original
(unpromoted) piece on the chain's final landing square — a man reaching the
back rank mid-chain gains no king directions during the chain. -/
theorem c7_chain_uses_original_piece (board : Board) (pos : Position) (piece : Piece)
    (m : CheckersMove) (hm : m ∈ getCapturesForPiece board pos piece none) :
    ValidHops piece pos m.path ∧
    chainSim piece board pos m.path m.captures (m.path.getLastD pos) = some piece := by
  obtain ⟨_, _, _, h4, _, h6⟩ := captures_top board pos piece m hm
  exact ⟨h4, h6⟩

/-- C8: every generated move is a jump with as many path steps as captures,
or a one-step simple move with no captures; no move has an empty path. -/
theorem c8_move_shape (board : Board) (turn : Color) (m : CheckersMove)
    (hm : m ∈ getAllowedMovesForBoard board turn) :
    (m.captures ≠ [] ∧ m.path.length = m.captures.length) ∨
    (m.captures = [] ∧ m.path.length = 1) := by
  rw [allowed_eq] at hm
  split at hm
  · obtain ⟨rc, _, piece, _, _, hmc⟩ := mem_allCaptures_spec board turn m hm
    exact Or.inl ⟨captures_top_ne board ⟨rc.1, rc.2⟩ piece m hmc,
      (captures_top board ⟨rc.1, rc.2⟩ piece m hmc).2.2.1⟩
  · obtain ⟨rc, _, hs⟩ := mem_guarded_simple board turn m hm
    exact Or.inr (mem_simplesAt_shape board turn rc m hs)

/-- C9: out-of-bounds lookups return no piece, whatever the board holds. -/
theorem c9_get_piece_oob (b : Board) (p : Position)
    (h : p.row < 0 ∨ 8 ≤ p.row ∨ p.col < 0 ∨ 8 ≤ p.col) : getPiece b p = none := by
  unfold getPiece
  exact if_pos h

/-- C10: at depth 0 the search is a terminal node: `minimax` returns a null
move and hence `bestMove` with depth 0 returns none, even when the side to
move has legal moves. -/
theorem c10_depth_zero_null_move (σ : List CheckersMove → List CheckersMove)
    (board : Board) (turn : Color)
    (hne : getAllowedMovesForBoard board turn ≠ []) :
    bestMove σ board 0 turn = none ∧
    ∀ (isMax : Bool) (perspective : Color),
      (minimax σ board 0 isMax turn perspective).move = none := by
  constructor
  · unfold bestMove
    rw [minimax, dif_pos (Or.inl rfl)]
  · intro isMax perspective
    rw [minimax, dif_pos (Or.inl rfl)]

/-! ### Witnesses -/

/-- Witness for C1: on `bTwoJump`, red has a capture available, and the
allowed-move list is exactly the union of red's capture moves. -/
theorem c1_mandatory_capture_witness :
    hasAnyCapture bTwoJump Color.red = true ∧
    getAllowedMovesForBoard bTwoJump Color.red = allCapturesList bTwoJump Color.red :=
  ⟨by decide, ((c1_mandatory_capture bTwoJump Color.red).1 (by decide)).1⟩

/-- Witness for C2: on `bTwoJump`, the two-jump chain is returned and its
one-jump strict prefix is not. -/
theorem c2_maximal_capture_chains_witness :
    mTwoJump ∈ getAllowedMovesForBoard bTwoJump Color.red ∧
    mOneJump ∉ getAllowedMovesForBoard bTwoJump Color.red := by
  have hM2 : mTwoJump ∈ getAllowedMovesForBoard bTwoJump Color.red := by
    simp only [getAllowedMovesForBoard, getCaptures_eq_fuel65]
    decide
  refine ⟨hM2, ?_⟩
  intro h1
  exact (c2_maximal_capture_chains bTwoJump Color.red).1 mOneJump h1 mTwoJump hM2
    ⟨rfl, ⟨[⟨1, 6⟩], rfl⟩, by decide, ⟨[⟨2, 5⟩], rfl⟩, by decide⟩

/-- Witness for C3: with the identity shuffle, depth 1, and the empty board,
`bestMove` returns none. -/
theorem c3_bestmove_root_witness : bestMove id bEmpty 1 Color.red = none :=
  (c3_bestmove_root id (fun l => List.Perm.refl l) bEmpty Color.red 1 (by decide)).1.mpr
    (by decide)

/-- Witness for C4: a red man stepping to (0,3) is promoted to a king. -/
theorem c4_promotion_back_rank_witness :
    updateBoard bPromo mPromo ⟨0, 3⟩ = some ⟨Color.red, PieceType.king⟩ := by
  have h := c4_promotion_back_rank bPromo mPromo ⟨Color.red, PieceType.man⟩
    (by decide) (by decide)
  simpa [mPromo] using h

/-- Witness for C6: updating a one-board store through a fresh clone leaves
the stored input board untouched, and the clone's reference is fresh. -/
theorem c6_update_no_mutation_witness :
    (heapUpdateBoard ⟨[bOne]⟩ 0 mPromo).1.cells[0]? = (Heap.mk [bOne]).cells[0]? ∧
    (heapClone ⟨[bOne]⟩ 0).2 ≠ 0 := by
  have h := c6_update_no_mutation ⟨[bOne]⟩ 0 mPromo (by decide)
  exact ⟨h.1, h.2.2.1⟩

/-- Witness for C7: the black man's jump onto the back rank is generated, its
hop uses the man's own directions, and the simulated board still stores the
unpromoted man on (7,4). -/
theorem c7_chain_uses_original_piece_witness :
    mMidChain ∈ getCapturesForPiece bMidChain ⟨5, 2⟩ ⟨Color.black, PieceType.man⟩ none ∧
    ValidHops ⟨Color.black, PieceType.man⟩ ⟨5, 2⟩ mMidChain.path ∧
    chainSim ⟨Color.black, PieceType.man⟩ bMidChain ⟨5, 2⟩ mMidChain.path
      mMidChain.captures (mMidChain.path.getLastD ⟨5, 2⟩) =
      some ⟨Color.black, PieceType.man⟩ := by
  have hmem : mMidChain ∈
      getCapturesForPiece bMidChain ⟨5, 2⟩ ⟨Color.black, PieceType.man⟩ none := by
    rw [getCaptures_eq_fuel65]
    decide
  have h := c7_chain_uses_original_piece bMidChain ⟨5, 2⟩ ⟨Color.black, PieceType.man⟩
    mMidChain hmem
  exact ⟨hmem, h.1, h.2⟩

/-- Witness for C8: the generated two-jump move has two captures and two
path steps. -/
theorem c8_move_shape_witness :
    (mTwoJump.captures ≠ [] ∧ mTwoJump.path.length = mTwoJump.captures.length) ∨
    (mTwoJump.captures = [] ∧ mTwoJump.path.length = 1) := by
  apply c8_move_shape bTwoJump Color.red mTwoJump
  simp only [getAllowedMovesForBoard, getCaptures_eq_fuel65]
  decide

/-- Witness for C9: row −1 reports no piece even on a fully occupied board. -/
theorem c9_get_piece_oob_witness :
    getPiece (fun _ => some ⟨Color.red, PieceType.man⟩) ⟨-1, 0⟩ = none :=
  c9_get_piece_oob _ _ (Or.inl (by decide))

/-- Witness for C10: red has moves on `bOne`, yet `bestMove` at depth 0
returns none. -/
theorem c10_depth_zero_null_move_witness :
    getAllowedMovesForBoard bOne Color.red ≠ [] ∧
    bestMove id bOne 0 Color.red = none := by
  have hne : getAllowedMovesForBoard bOne Color.red ≠ [] := by
    simp only [getAllowedMovesForBoard, getCaptures_eq_fuel65]
    decide
  exact ⟨hne, (c10_depth_zero_null_move id bOne Color.red hne).1⟩

end Checkers
